import Mathlib

/-!
A shallow embedding of the `jlnexus` backtracking token-buffer library
(`src/lib.rs`) and proofs of its specified properties.

Modelling conventions:
* Rust slices and `Rc<[T]>` sequences are both modelled as `List T`; the
  two ownership variants of `Input` are kept as two constructors to mirror
  the source.
* A Rust parsing callback `F : FnMut(&mut Parser<T>) -> Result<S, E>` is
  modelled as a state function `Parser T → Except E S × Parser T`: it
  receives the (speculative duplicate of the) buffer and returns the
  result together with the mutated buffer.
* `Parser::list` is a `loop` in the source that terminates only when the
  callback eventually fails, so it is embedded as a big-step relation
  `Parser.ListRun` describing exactly the outcomes of the Rust loop,
  together with a fuel-indexed executable companion `Parser.listFuel`
  proved sound with respect to the relation.
* `Parser::end` is named `Parser.atEnd` because `end` is a Lean keyword.
-/

namespace Jln

/-- The `Input` enum of the source: a borrowed slice or a shared `Rc` slice. -/
inductive Input (T : Type) : Type where
  | Ref : List T → Input T
  | Rc : List T → Input T
deriving DecidableEq

/-- `impl Clone for Input` : clone the borrow, or bump the `Rc` count. -/
def Input.clone {T : Type} : Input T → Input T
  | .Ref x => .Ref x
  | .Rc x => .Rc x

/-- `impl Deref for Input` : both variants dereference to the slice. -/
def Input.deref {T : Type} : Input T → List T
  | .Ref x => x
  | .Rc x => x

/-- The `JlnError` trait: fatality classification, end-of-input
construction and aggregation of ordinary failures. -/
class JlnError (E : Type) where
  is_fatal : E → Bool
  eof : E
  aggregate : List E → E

/-- The `Parser` struct: an input handle together with a cursor index. -/
structure Parser (T : Type) where
  input : Input T
  index : Nat
deriving DecidableEq

/-- `impl Clone for Parser` : clone the input handle, copy the index. -/
def Parser.clone {T : Type} (p : Parser T) : Parser T :=
  { input := p.input.clone, index := p.index }

/-- `Parser::new` : start at index 0 over a borrowed slice. -/
def Parser.new {T : Type} (input : List T) : Parser T :=
  { input := Input.Ref input, index := 0 }

/-- `impl From<Vec<T>> for Parser` : shared storage, index 0. -/
def Parser.fromVec {T : Type} (item : List T) : Parser T :=
  { input := Input.Rc item, index := 0 }

/-- The commit step `self.index = ops.index` shared by all combinators. -/
def Parser.commit {T : Type} (p ops : Parser T) : Parser T :=
  { p with index := ops.index }

/-- `Parser::peek` : the element at `index` without advancing, or `eof`. -/
def Parser.peek {T E : Type} [JlnError E] (p : Parser T) : Except E T :=
  if h : p.index < p.input.deref.length then
    .ok (p.input.deref.get ⟨p.index, h⟩)
  else
    .error JlnError.eof

/-- `Parser::get` : the element at `index`, advancing by one, or `eof`. -/
def Parser.get {T E : Type} [JlnError E] (p : Parser T) : Except E T × Parser T :=
  if h : p.index < p.input.deref.length then
    (.ok (p.input.deref.get ⟨p.index, h⟩), { p with index := p.index + 1 })
  else
    (.error JlnError.eof, p)

/-- `Parser::end` : `self.index >= self.input.len()`. -/
def Parser.atEnd {T : Type} (p : Parser T) : Bool :=
  p.input.deref.length ≤ p.index

/-- `Parser::with_rollback` : run `f` on a duplicate; commit its index on
success, discard it on failure. -/
def Parser.with_rollback {T S E : Type} [JlnError E] (p : Parser T)
    (f : Parser T → Except E S × Parser T) : Except E S × Parser T :=
  let ops := p.clone
  match f ops with
  | (.ok r, ops2) => (.ok r, p.commit ops2)
  | (.error e, _) => (.error e, p)

/-- `Parser::option` : like `with_rollback` but an ordinary failure becomes
`Ok(None)`; a fatal failure is propagated. -/
def Parser.option {T S E : Type} [JlnError E] (p : Parser T)
    (f : Parser T → Except E S × Parser T) : Except E (Option S) × Parser T :=
  let ops := p.clone
  match f ops with
  | (.ok v, ops2) => (.ok (some v), p.commit ops2)
  | (.error e, _) =>
    if JlnError.is_fatal e then (.error e, p) else (.ok none, p)

/-- The loop of `Parser::or`, with the accumulated `errors` vector made
explicit: try each target on a duplicate of `self`; commit and return the
first success; return a fatal error at once; otherwise collect the error
and continue, aggregating at the end. -/
def Parser.orGo {T S E : Type} [JlnError E] (p : Parser T) (errors : List E) :
    List (Parser T → Except E S × Parser T) → Except E S × Parser T
  | [] => (.error (JlnError.aggregate errors), p)
  | target :: rest =>
    let ops := p.clone
    match target ops with
    | (.ok s, ops2) => (.ok s, p.commit ops2)
    | (.error e, _) =>
      if JlnError.is_fatal e then (.error e, p)
      else p.orGo (errors ++ [e]) rest

/-- `Parser::or` : ordered alternation, starting with no collected errors. -/
def Parser.or {T S E : Type} [JlnError E] (p : Parser T)
    (targets : List (Parser T → Except E S × Parser T)) : Except E S × Parser T :=
  p.orGo [] targets

/-- Big-step semantics of the `loop` in `Parser::list`: `ListRun f p r`
holds exactly when the Rust loop, started on buffer `p`, terminates with
result and final buffer `r`.  Each iteration runs `f` on a duplicate of
the current buffer: a success commits the duplicate's index and prepends
the value; an ordinary failure stops the loop returning the accumulated
values; a fatal failure returns that error (the buffer keeps the already
committed index). -/
inductive Parser.ListRun {T S E : Type} [JlnError E]
    (f : Parser T → Except E S × Parser T) :
    Parser T → Except E (List S) × Parser T → Prop where
  | fatal {p : Parser T} {e : E} {q : Parser T} :
      f p.clone = (.error e, q) → JlnError.is_fatal e = true →
      ListRun f p (.error e, p)
  | stop {p : Parser T} {e : E} {q : Parser T} :
      f p.clone = (.error e, q) → JlnError.is_fatal e = false →
      ListRun f p (.ok [], p)
  | stepOk {p : Parser T} {v : S} {q : Parser T} {vs : List S} {p2 : Parser T} :
      f p.clone = (.ok v, q) → ListRun f (p.commit q) (.ok vs, p2) →
      ListRun f p (.ok (v :: vs), p2)
  | stepErr {p : Parser T} {v : S} {q : Parser T} {e : E} {p2 : Parser T} :
      f p.clone = (.ok v, q) → ListRun f (p.commit q) (.error e, p2) →
      ListRun f p (.error e, p2)

/-- Executable companion of `ListRun`: run the loop of `Parser::list` for
at most `n` iterations, returning `none` when the fuel runs out. -/
def Parser.listFuel {T S E : Type} [JlnError E]
    (f : Parser T → Except E S × Parser T) :
    Nat → Parser T → Option (Except E (List S) × Parser T)
  | 0, _ => none
  | n + 1, p =>
    match f p.clone with
    | (.ok v, q) =>
      match Parser.listFuel f n (p.commit q) with
      | some (.ok vs, p2) => some (.ok (v :: vs), p2)
      | some (.error e, p2) => some (.error e, p2)
      | none => none
    | (.error e, _) =>
      if JlnError.is_fatal e then some (.error e, p) else some (.ok [], p)

/-- The `impl JlnError for ()` of the source's tests: never fatal. -/
instance : JlnError Unit where
  is_fatal _ := false
  eof := ()
  aggregate _ := ()

/-- The `TError(bool)` type of the source's tests. -/
structure TError where
  fatal : Bool
deriving DecidableEq

/-- The `impl JlnError for TError` of the source's tests. -/
instance : JlnError TError where
  is_fatal e := e.fatal
  eof := ⟨false⟩
  aggregate errors := ⟨errors.any (fun x => x.fatal)⟩

/-- The cursor invariant: the index never exceeds the input length. -/
def Parser.Inv {T : Type} (p : Parser T) : Prop :=
  p.index ≤ p.input.deref.length

/-- A callback advances the cursor: on success the resulting index is at
least the starting index and at most the input length.  Every callback
built from the public API satisfies this. -/
def Advances {T S E : Type} (f : Parser T → Except E S × Parser T) : Prop :=
  ∀ p v q, f p = (.ok v, q) → p.index ≤ q.index ∧ q.index ≤ p.input.deref.length

/-- The alternatives `ts` all fail ordinarily (non-fatally) when run on a
duplicate of `p`, producing the errors `es`, in trial order. -/
def FailsOrd {T S E : Type} [JlnError E] (p : Parser T)
    (ts : List (Parser T → Except E S × Parser T)) (es : List E) : Prop :=
  List.Forall₂
    (fun t e => (∃ q, t p.clone = (.error e, q)) ∧ JlnError.is_fatal e = false) ts es

/-- Cloning a `Parser` is semantically the identity. -/
theorem Parser.clone_eq {T : Type} (p : Parser T) : p.clone = p := by
  cases p with
  | mk input index => cases input <;> rfl

/-- `Parser.get` satisfies `Advances`. -/
theorem advances_get {T E : Type} [JlnError E] :
    Advances (fun p : Parser T => p.get (E := E)) := by
  intro p v q h
  by_cases hlt : p.index < p.input.deref.length
  · simp only [Parser.get, dif_pos hlt] at h
    cases h
    exact ⟨Nat.le_succ _, hlt⟩
  · simp only [Parser.get, dif_neg hlt] at h
    cases h

/-- Claim C1: for every buffer state (any index, any input, including the
empty one) and every callback, if the callback fails on the speculative
duplicate then `with_rollback` returns that same error unchanged and
leaves the buffer's index exactly as it was; if the callback succeeds,
`with_rollback` returns its success value and sets the buffer's index to
the duplicate's final index. -/
theorem claim1_with_rollback {T S E : Type} [JlnError E] (p : Parser T)
    (f : Parser T → Except E S × Parser T) :
    (∀ e q, f p.clone = (.error e, q) →
      p.with_rollback f = (.error e, p) ∧ (p.with_rollback f).2.index = p.index) ∧
    (∀ v q, f p.clone = (.ok v, q) →
      p.with_rollback f = (.ok v, { p with index := q.index })) := by
  refine ⟨fun e q h => ?_, fun v q h => ?_⟩
  · simp [Parser.with_rollback, h]
  · simp [Parser.with_rollback, h, Parser.commit]

/-- Witness for C1 at concrete inputs: `get` failing on an empty buffer
rolls back; `get` succeeding on `[1,2,3]` commits index 1. -/
theorem claim1_witness :
    ((Parser.new ([] : List Nat)).with_rollback (fun q => q.get (E := Unit)) =
        (.error (), Parser.new ([] : List Nat)) ∧
      ((Parser.new ([] : List Nat)).with_rollback (fun q => q.get (E := Unit))).2.index = 0) ∧
    (Parser.new [1, 2, 3]).with_rollback (fun q => q.get (E := Unit)) =
      (.ok 1, { input := Input.Ref [1, 2, 3], index := 1 }) :=
  ⟨(claim1_with_rollback (Parser.new ([] : List Nat)) _).1 ()
      (Parser.new ([] : List Nat)).clone rfl,
   (claim1_with_rollback (Parser.new [1, 2, 3]) _).2 1
      { input := Input.Ref [1, 2, 3], index := 1 } rfl⟩

/-- Claim C5: `option` turns an ordinary (non-fatal) failure of the
callback into success carrying `none` with the buffer unchanged,
propagates a fatal failure unchanged, and on success returns `some` of
the value with the index set to exactly what the callback committed. -/
theorem claim5_option {T S E : Type} [JlnError E] (p : Parser T)
    (f : Parser T → Except E S × Parser T) :
    (∀ e q, f p.clone = (.error e, q) → JlnError.is_fatal e = false →
      p.option f = (.ok none, p)) ∧
    (∀ e q, f p.clone = (.error e, q) → JlnError.is_fatal e = true →
      p.option f = (.error e, p)) ∧
    (∀ v q, f p.clone = (.ok v, q) →
      p.option f = (.ok (some v), { p with index := q.index })) := by
  refine ⟨fun e q h hf => ?_, fun e q h hf => ?_, fun v q h => ?_⟩
  · simp [Parser.option, h, hf]
  · simp [Parser.option, h, hf]
  · simp [Parser.option, h, Parser.commit]

/-- Witness for C5 at concrete inputs, using the `TError` error type. -/
theorem claim5_witness :
    (Parser.new [1, 2, 3]).option (fun b => ((.error ⟨false⟩ : Except TError Nat), b)) =
      (.ok none, Parser.new [1, 2, 3]) ∧
    (Parser.new [1, 2, 3]).option (fun b => ((.error ⟨true⟩ : Except TError Nat), b)) =
      (.error ⟨true⟩, Parser.new [1, 2, 3]) ∧
    (Parser.new [1, 2, 3]).option (fun b => b.get (E := TError)) =
      (.ok (some 1), { input := Input.Ref [1, 2, 3], index := 1 }) :=
  ⟨(claim5_option _ _).1 (⟨false⟩ : TError) (Parser.new [1, 2, 3]).clone rfl rfl,
   (claim5_option _ _).2.1 (⟨true⟩ : TError) (Parser.new [1, 2, 3]).clone rfl rfl,
   (claim5_option _ _).2.2 1 { input := Input.Ref [1, 2, 3], index := 1 } rfl⟩

/-- Claim C6: `get` returns the element at the current index and advances
the index by one when `index < length`; it fails with the error built by
`eof` and leaves the index unchanged when `index = length`; on `[1,2,3]`
the first call returns 1 leaving index 1, after three calls `end` is
true, and a fourth call fails with the `eof` error leaving index 3. -/
theorem claim6_get {T E : Type} [JlnError E] (p : Parser T) :
    (∀ h : p.index < p.input.deref.length,
      p.get (E := E) =
        (.ok (p.input.deref.get ⟨p.index, h⟩), { p with index := p.index + 1 })) ∧
    (p.index = p.input.deref.length → p.get (E := E) = (.error JlnError.eof, p)) ∧
    (Parser.new [1, 2, 3]).get (E := Unit) =
      (.ok 1, { input := Input.Ref [1, 2, 3], index := 1 }) ∧
    ((((Parser.new [1, 2, 3]).get (E := Unit)).2.get (E := Unit)).2.get (E := Unit)).2.atEnd
      = true ∧
    ((((Parser.new [1, 2, 3]).get (E := Unit)).2.get (E := Unit)).2.get (E := Unit)).2.get
        (E := Unit)
      = (.error (), { input := Input.Ref [1, 2, 3], index := 3 }) := by
  refine ⟨fun h => ?_, fun h => ?_, rfl, rfl, rfl⟩
  · simp only [Parser.get]
    rw [dif_pos h]
  · have hn : ¬ p.index < p.input.deref.length := by omega
    simp only [Parser.get]
    rw [dif_neg hn]

/-- Witness for C6 at concrete inputs on both sides of the boundary. -/
theorem claim6_witness :
    (Parser.new [10, 20]).get (E := Unit) =
      (.ok 10, { input := Input.Ref [10, 20], index := 1 }) ∧
    ({ input := Input.Ref [10, 20], index := 2 } : Parser Nat).get (E := Unit) =
      (.error (), { input := Input.Ref [10, 20], index := 2 }) :=
  ⟨(claim6_get (E := Unit) (Parser.new [10, 20])).1 (by decide),
   (claim6_get (E := Unit) ({ input := Input.Ref [10, 20], index := 2 } : Parser Nat)).2.1 rfl⟩

/-- Claim C8: for every buffer satisfying the cursor invariant
`index ≤ length` (which holds for every buffer reachable through the
public API), `end` returns true iff the index equals the input length. -/
theorem claim8_end_iff {T : Type} (p : Parser T) (h : p.Inv) :
    p.atEnd = true ↔ p.index = p.input.deref.length := by
  have h2 : p.index ≤ p.input.deref.length := h
  simp only [Parser.atEnd, decide_eq_true_eq]
  omega

/-- Witness for C8 at a concrete exhausted buffer. -/
theorem claim8_witness :
    (({ input := Input.Ref [1, 2], index := 2 } : Parser Nat).atEnd = true ↔
      ({ input := Input.Ref [1, 2], index := 2 } : Parser Nat).index =
        ({ input := Input.Ref [1, 2], index := 2 } : Parser Nat).input.deref.length) :=
  claim8_end_iff _ (by unfold Parser.Inv; decide)

/-- The loop of `or` skips a block of ordinarily-failing alternatives,
appending their errors, in order, to the accumulated error vector. -/
theorem orGo_ord_skip {T S E : Type} [JlnError E] (p : Parser T)
    {ts : List (Parser T → Except E S × Parser T)} {es : List E}
    (h : FailsOrd p ts es) (acc : List E)
    (rest : List (Parser T → Except E S × Parser T)) :
    p.orGo acc (ts ++ rest) = p.orGo (acc ++ es) rest := by
  induction h generalizing acc with
  | nil => simp
  | cons ht hrest ih =>
    obtain ⟨⟨q, hq⟩, hf⟩ := ht
    simp only [List.cons_append, Parser.orGo, hq, hf, Bool.false_eq_true, if_false,
      List.append_eq]
    rw [ih]
    simp

/-- Claim C2: given a prefix `ts` of alternatives that all fail
ordinarily on the duplicate (with errors `es` in trial order): if the
next alternative `g` fails with a fatal error, `or` returns exactly that
error with the buffer unchanged, and the result does not depend on the
remaining alternatives `post` (they are never invoked); and if every
alternative fails ordinarily, `or` returns the error built by `aggregate`
from the collected ordinary errors in trial order, with the buffer
unchanged. -/
theorem claim2_or_fatal_aggregate {T S E : Type} [JlnError E] (p : Parser T)
    (ts : List (Parser T → Except E S × Parser T)) (es : List E)
    (hts : FailsOrd p ts es) :
    (∀ (g : Parser T → Except E S × Parser T)
        (post : List (Parser T → Except E S × Parser T)) (e : E) (q : Parser T),
      g p.clone = (.error e, q) → JlnError.is_fatal e = true →
      p.or (ts ++ g :: post) = (.error e, p)) ∧
    p.or ts = (.error (JlnError.aggregate es), p) := by
  constructor
  · intro g post e q hg hf
    show p.orGo [] (ts ++ g :: post) = _
    rw [orGo_ord_skip p hts [] (g :: post)]
    simp [Parser.orGo, hg, hf]
  · show p.orGo [] ts = _
    have h := orGo_ord_skip p hts [] []
    rw [List.append_nil] at h
    rw [h]
    rfl

/-- Witness for C2: over `TError`, an ordinary alternative followed by a
fatal one short-circuits past a third alternative; two ordinary failures
aggregate. -/
theorem claim2_witness :
    (Parser.new [5]).or
        [fun b => ((.error ⟨false⟩ : Except TError Nat), b),
         fun b => ((.error ⟨true⟩ : Except TError Nat), b),
         fun b => b.get (E := TError)] =
      (.error ⟨true⟩, Parser.new [5]) ∧
    (Parser.new [5]).or
        [fun b => ((.error ⟨false⟩ : Except TError Nat), b),
         fun b => ((.error ⟨false⟩ : Except TError Nat), b)] =
      (.error (JlnError.aggregate [⟨false⟩, ⟨false⟩]), Parser.new [5]) :=
  ⟨(claim2_or_fatal_aggregate (Parser.new [5])
      [fun b => ((.error ⟨false⟩ : Except TError Nat), b)] [⟨false⟩]
      (List.Forall₂.cons ⟨⟨(Parser.new [5]).clone, rfl⟩, rfl⟩ List.Forall₂.nil)).1
      (fun b => ((.error ⟨true⟩ : Except TError Nat), b))
      [fun b => b.get (E := TError)] ⟨true⟩ (Parser.new [5]).clone rfl rfl,
   (claim2_or_fatal_aggregate (Parser.new [5])
      [fun b => ((.error ⟨false⟩ : Except TError Nat), b),
       fun b => ((.error ⟨false⟩ : Except TError Nat), b)] [⟨false⟩, ⟨false⟩]
      (List.Forall₂.cons ⟨⟨(Parser.new [5]).clone, rfl⟩, rfl⟩
        (List.Forall₂.cons ⟨⟨(Parser.new [5]).clone, rfl⟩, rfl⟩
          List.Forall₂.nil))).2⟩

/-- Claim C3: `or` tries the alternatives in order, each one running on a
duplicate taken at the buffer's original index; after a prefix `ts` of
ordinary failures, the first alternative `g` to succeed has its resulting
index committed into the buffer and its value returned, and the result
does not depend on the remaining alternatives `post` (they are never
invoked). -/
theorem claim3_or_first_success {T S E : Type} [JlnError E] (p : Parser T)
    (ts : List (Parser T → Except E S × Parser T)) (es : List E)
    (hts : FailsOrd p ts es)
    (g : Parser T → Except E S × Parser T)
    (post : List (Parser T → Except E S × Parser T)) (v : S) (q : Parser T)
    (hg : g p.clone = (.ok v, q)) :
    p.or (ts ++ g :: post) = (.ok v, { p with index := q.index }) := by
  show p.orGo [] (ts ++ g :: post) = _
  rw [orGo_ord_skip p hts [] (g :: post)]
  simp [Parser.orGo, hg, Parser.commit]

/-- Witness for C3: an ordinary failure, then a succeeding `get` whose
index is committed; a trailing alternative is never reached. -/
theorem claim3_witness :
    (Parser.new [1, 2, 3]).or
        [fun b => ((.error ⟨false⟩ : Except TError Nat), b),
         fun b => b.get (E := TError),
         fun b => ((.error ⟨true⟩ : Except TError Nat), b)] =
      (.ok 1, { input := Input.Ref [1, 2, 3], index := 1 }) :=
  claim3_or_first_success (Parser.new [1, 2, 3])
    [fun b => ((.error ⟨false⟩ : Except TError Nat), b)] [⟨false⟩]
    (List.Forall₂.cons ⟨⟨(Parser.new [1, 2, 3]).clone, rfl⟩, rfl⟩ List.Forall₂.nil)
    (fun b => b.get (E := TError))
    [fun b => ((.error ⟨true⟩ : Except TError Nat), b)] 1
    { input := Input.Ref [1, 2, 3], index := 1 } rfl

/-- Claim C10: `or` applied to zero alternatives never succeeds: it
returns the error `aggregate` of the empty error list and leaves the
buffer's index unchanged. -/
theorem claim10_or_empty {T S E : Type} [JlnError E] (p : Parser T) :
    p.or ([] : List (Parser T → Except E S × Parser T)) =
      (.error (JlnError.aggregate []), p) := rfl

/-- The fuel-indexed executable loop is sound for the big-step relation:
whenever it terminates within the fuel, the relation holds. -/
theorem listFuel_sound {T S E : Type} [JlnError E]
    (f : Parser T → Except E S × Parser T) :
    ∀ (n : Nat) (p : Parser T) (r : Except E (List S) × Parser T),
      Parser.listFuel f n p = some r → Parser.ListRun f p r := by
  intro n
  induction n with
  | zero => intro p r h; simp [Parser.listFuel] at h
  | succ n ih =>
    intro p r h
    simp only [Parser.listFuel] at h
    rcases hc : f p.clone with ⟨res, q⟩
    cases res with
    | ok v =>
      simp only [hc] at h
      rcases h2 : Parser.listFuel f n (p.commit q) with _ | ⟨res2, p2⟩
      · simp only [h2] at h
        exact Option.noConfusion h
      · simp only [h2] at h
        cases res2 with
        | ok vs =>
          injection h with h
          subst h
          exact Parser.ListRun.stepOk hc (ih _ _ h2)
        | error e =>
          injection h with h
          subst h
          exact Parser.ListRun.stepErr hc (ih _ _ h2)
    | error e =>
      simp only [hc] at h
      by_cases hfat : JlnError.is_fatal e
      · rw [if_pos hfat] at h
        injection h with h
        subst h
        exact Parser.ListRun.fatal hc hfat
      · rw [if_neg hfat] at h
        injection h with h
        subst h
        exact Parser.ListRun.stop hc (by simpa using hfat)

/-- Claim C4: the `list` loop repeatedly runs the callback on a fresh
duplicate at the current index.  Its behaviour is characterized case by
case: a fatal failure of the callback makes the loop return that error
(discarding accumulated results); an ordinary failure stops the loop
without error, returning the values accumulated so far with the buffer
at the last committed position; a success commits the duplicate's index
and prepends the value to the remaining run.  In particular, `list` of
`get` over `[1,2,3]` yields `[1,2,3]` with final index 3, and `list` of
an always-ordinarily-failing callback yields `[]` with the buffer
unchanged. -/
theorem claim4_list {T S E : Type} [JlnError E]
    (f : Parser T → Except E S × Parser T) (p : Parser T) :
    ((∀ e q, f p.clone = (.error e, q) → JlnError.is_fatal e = true →
        ∀ r, Parser.ListRun f p r ↔ r = (.error e, p)) ∧
     (∀ e q, f p.clone = (.error e, q) → JlnError.is_fatal e = false →
        ∀ r, Parser.ListRun f p r ↔ r = (.ok [], p)) ∧
     (∀ v q, f p.clone = (.ok v, q) →
        ∀ r, Parser.ListRun f p r ↔
          ((∃ vs p2, r = (.ok (v :: vs), p2) ∧
              Parser.ListRun f (p.commit q) (.ok vs, p2)) ∨
           (∃ e p2, r = (.error e, p2) ∧
              Parser.ListRun f (p.commit q) (.error e, p2))))) ∧
    Parser.ListRun (fun b => b.get (E := Unit)) (Parser.new [1, 2, 3])
      (.ok [1, 2, 3], { input := Input.Ref [1, 2, 3], index := 3 }) ∧
    (∀ (g : Parser T → Except E S × Parser T) (b : Parser T),
      (∀ c, ∃ e d, g c = (.error e, d) ∧ JlnError.is_fatal e = false) →
      Parser.ListRun g b (.ok [], b)) := by
  refine ⟨⟨fun e q hq hf r => ⟨fun hr => ?_, fun hr => ?_⟩,
           fun e q hq hf r => ⟨fun hr => ?_, fun hr => ?_⟩,
           fun v q hq r => ⟨fun hr => ?_, fun hr => ?_⟩⟩,
          ?_, fun g b hb => ?_⟩
  · cases hr with
    | fatal h1 h2 =>
      injection hq.symm.trans h1 with h1a h1b
      injection h1a with h1a
      subst h1a
      rfl
    | stop h1 h2 =>
      injection hq.symm.trans h1 with h1a h1b
      injection h1a with h1a
      subst h1a
      rw [hf] at h2
      cases h2
    | stepOk h1 h2 => rw [hq] at h1; simp at h1
    | stepErr h1 h2 => rw [hq] at h1; simp at h1
  · subst hr
    exact Parser.ListRun.fatal hq hf
  · cases hr with
    | fatal h1 h2 =>
      injection hq.symm.trans h1 with h1a h1b
      injection h1a with h1a
      subst h1a
      rw [hf] at h2
      cases h2
    | stop h1 h2 => rfl
    | stepOk h1 h2 => rw [hq] at h1; simp at h1
    | stepErr h1 h2 => rw [hq] at h1; simp at h1
  · subst hr
    exact Parser.ListRun.stop hq hf
  · cases hr with
    | fatal h1 h2 => rw [hq] at h1; simp at h1
    | stop h1 h2 => rw [hq] at h1; simp at h1
    | stepOk h1 h2 =>
      injection hq.symm.trans h1 with h1a h1b
      injection h1a with h1a
      subst h1a
      subst h1b
      exact Or.inl ⟨_, _, rfl, h2⟩
    | stepErr h1 h2 =>
      injection hq.symm.trans h1 with h1a h1b
      injection h1a with h1a
      subst h1a
      subst h1b
      exact Or.inr ⟨_, _, rfl, h2⟩
  · rcases hr with ⟨vs, p2, rfl, h2⟩ | ⟨e, p2, rfl, h2⟩
    · exact Parser.ListRun.stepOk hq h2
    · exact Parser.ListRun.stepErr hq h2
  · exact Parser.ListRun.stepOk rfl
      (Parser.ListRun.stepOk rfl
        (Parser.ListRun.stepOk rfl (Parser.ListRun.stop rfl rfl)))
  · obtain ⟨e, d, hg, hfat⟩ := hb b.clone
    exact Parser.ListRun.stop hg hfat

/-- Witness for C4: an always-ordinarily-failing callback over `TError`
yields the empty list, leaving the concrete buffer `[7]` unchanged. -/
theorem claim4_witness :
    Parser.ListRun (fun b => ((.error ⟨false⟩ : Except TError Nat), b))
      (Parser.new [7]) (.ok [], Parser.new [7]) :=
  (claim4_list (fun b => ((.error ⟨false⟩ : Except TError Nat), b))
      (Parser.new [7])).2.2
    (fun b => ((.error ⟨false⟩ : Except TError Nat), b)) (Parser.new [7])
    (fun c => ⟨⟨false⟩, c, rfl, rfl⟩)

/-- The loop of `or` keeps the buffer's input, never decreases its index,
and preserves the cursor invariant, provided every alternative advances. -/
theorem orGo_bounds {T S E : Type} [JlnError E] (p : Parser T) :
    ∀ (ts : List (Parser T → Except E S × Parser T)) (acc : List E),
      (∀ t ∈ ts, Advances t) →
      p.index ≤ (p.orGo acc ts).2.index ∧ (p.orGo acc ts).2.input = p.input ∧
        (p.Inv → (p.orGo acc ts).2.Inv) := by
  intro ts
  induction ts with
  | nil => intro acc _; exact ⟨le_refl _, rfl, id⟩
  | cons t rest ih =>
    intro acc hvt
    have ht : Advances t := hvt t (List.mem_cons_self _ _)
    have hrest : ∀ s ∈ rest, Advances s := fun s hs => hvt s (List.mem_cons_of_mem _ hs)
    rcases hc : t p.clone with ⟨res, q⟩
    cases res with
    | ok v =>
      have hb := ht p.clone v q hc
      rw [Parser.clone_eq] at hb
      simp only [Parser.orGo, hc]
      exact ⟨hb.1, by simp [Parser.commit], fun _ => hb.2⟩
    | error e =>
      simp only [Parser.orGo, hc]
      by_cases hfat : JlnError.is_fatal e
      · rw [if_pos hfat]
        exact ⟨le_refl _, by simp, id⟩
      · rw [if_neg hfat]
        exact ih (acc ++ [e]) hrest

/-- A terminating `list` run keeps the buffer's input, never decreases
its index, and preserves the cursor invariant, provided the callback
advances. -/
theorem listRun_bounds {T S E : Type} [JlnError E]
    {f : Parser T → Except E S × Parser T} (hf : Advances f) :
    ∀ {p : Parser T} {r : Except E (List S) × Parser T}, Parser.ListRun f p r →
      p.index ≤ r.2.index ∧ r.2.input = p.input ∧ (p.Inv → r.2.Inv) := by
  intro p r h
  induction h with
  | fatal h1 h2 => exact ⟨le_refl _, by simp, id⟩
  | stop h1 h2 => exact ⟨le_refl _, by simp, id⟩
  | stepOk h1 h2 ih =>
    have hb := hf _ _ _ h1
    rw [Parser.clone_eq] at hb
    exact ⟨le_trans hb.1 ih.1, ih.2.1, fun _ => ih.2.2 hb.2⟩
  | stepErr h1 h2 ih =>
    have hb := hf _ _ _ h1
    rw [Parser.clone_eq] at hb
    exact ⟨le_trans hb.1 ih.1, ih.2.1, fun _ => ih.2.2 hb.2⟩

/-- Claim C7: every buffer's index satisfies `0 ≤ index`, the invariant
`index ≤ length` is preserved by every mutating public operation, and no
public operation ever leaves the index smaller than before the call, for
callbacks that themselves advance (as every callback built from the
public API does): `get`, `with_rollback`, `option`, `or` and (any
terminating run of) `list` keep the input, never decrease the committed
index, and preserve the invariant.  (`peek`, `end` and `index` take the
buffer immutably and are modelled as pure functions, so they change
nothing.) -/
theorem claim7_invariant {T S E : Type} [JlnError E] :
    (∀ p : Parser T, 0 ≤ p.index) ∧
    (∀ p : Parser T, p.index ≤ (p.get (E := E)).2.index ∧
      (p.get (E := E)).2.input = p.input ∧ (p.Inv → (p.get (E := E)).2.Inv)) ∧
    (∀ (p : Parser T) (f : Parser T → Except E S × Parser T), Advances f →
      p.index ≤ (p.with_rollback f).2.index ∧
      (p.with_rollback f).2.input = p.input ∧
      (p.Inv → (p.with_rollback f).2.Inv)) ∧
    (∀ (p : Parser T) (f : Parser T → Except E S × Parser T), Advances f →
      p.index ≤ (p.option f).2.index ∧ (p.option f).2.input = p.input ∧
      (p.Inv → (p.option f).2.Inv)) ∧
    (∀ (p : Parser T) (ts : List (Parser T → Except E S × Parser T)),
      (∀ t ∈ ts, Advances t) →
      p.index ≤ (p.or ts).2.index ∧ (p.or ts).2.input = p.input ∧
      (p.Inv → (p.or ts).2.Inv)) ∧
    (∀ (p : Parser T) (f : Parser T → Except E S × Parser T)
        (s : Except E (List S)) (q : Parser T), Advances f →
      Parser.ListRun f p (s, q) →
      p.index ≤ q.index ∧ q.input = p.input ∧ (p.Inv → q.Inv)) := by
  refine ⟨fun p => Nat.zero_le _, fun p => ?_, fun p f hf => ?_, fun p f hf => ?_,
    fun p ts hts => orGo_bounds p ts [] hts,
    fun p f s q hf hrun => listRun_bounds hf hrun⟩
  · by_cases h : p.index < p.input.deref.length
    · simp only [Parser.get]
      rw [dif_pos h]
      exact ⟨Nat.le_succ _, by simp, fun _ => h⟩
    · simp only [Parser.get]
      rw [dif_neg h]
      exact ⟨le_refl _, by simp, id⟩
  · rcases hc : f p.clone with ⟨res, q⟩
    cases res with
    | ok v =>
      have hb := hf _ _ _ hc
      rw [Parser.clone_eq] at hb
      simp only [Parser.with_rollback, hc]
      exact ⟨hb.1, by simp [Parser.commit], fun _ => hb.2⟩
    | error e =>
      simp only [Parser.with_rollback, hc]
      exact ⟨le_refl _, by simp, id⟩
  · rcases hc : f p.clone with ⟨res, q⟩
    cases res with
    | ok v =>
      have hb := hf _ _ _ hc
      rw [Parser.clone_eq] at hb
      simp only [Parser.option, hc]
      exact ⟨hb.1, by simp [Parser.commit], fun _ => hb.2⟩
    | error e =>
      simp only [Parser.option, hc]
      by_cases hfat : JlnError.is_fatal e
      · rw [if_pos hfat]
        exact ⟨le_refl _, by simp, id⟩
      · rw [if_neg hfat]
        exact ⟨le_refl _, by simp, id⟩

/-- Witness for C7: `with_rollback` of `get` on the concrete buffer
`[1,2]` does not decrease the index and preserves the invariant. -/
theorem claim7_witness :
    (Parser.new [1, 2]).index ≤
      ((Parser.new [1, 2]).with_rollback (fun b => b.get (E := Unit))).2.index ∧
    ((Parser.new [1, 2]).with_rollback (fun b => b.get (E := Unit))).2.Inv :=
  ⟨((claim7_invariant (S := Nat)).2.2.1 (Parser.new [1, 2])
      (fun b => b.get (E := Unit)) advances_get).1,
   ((claim7_invariant (S := Nat)).2.2.1 (Parser.new [1, 2])
      (fun b => b.get (E := Unit)) advances_get).2.2 (Nat.zero_le _)⟩

end Jln
